import Mathlib

/-!
Verification of the iron-manager core: the identity codec
(`createUsername` / `parseUsername` in src/iron-manager.ts), the transactional
Lock, the weekly IRON ledger (`IronLock`), the deployment activity store
(`DeploymentActivityLock`) in src/logger.ts, and the distribution
orchestrator (`distributeIron`).

JavaScript strings are embedded as `List Char` (one element per UTF-16 unit
of the original); JS numbers that are used as integers are embedded as `Int`
(or `Nat` where the source guarantees non-negativity).
-/

namespace IronManager

/-! ## Model of the third-party roman-numerals dependency -/

/-- Modelled from the spec: the `roman-numerals` npm dependency is not part of
the repository.  Per the spec, counts render as "an upper-case numeral in a
bounded additive symbolic system (Roman-numeral style: I/V/X/L/C/D/M)".
`toRoman` renders a positive count in canonical subtractive form using the
standard value table. -/
def romanPairs : List (Nat × List Char) :=
  [(1000, ['M']), (900, ['C','M']), (500, ['D']), (400, ['C','D']),
   (100, ['C']), (90, ['X','C']), (50, ['L']), (40, ['X','L']),
   (10, ['X']), (9, ['I','X']), (5, ['V']), (4, ['I','V']), (1, ['I'])]

def toRomanAux : List (Nat × List Char) → Nat → List Char
  | [], _ => []
  | (v, sym) :: rest, n => (List.replicate (n / v) sym).flatten ++ toRomanAux rest (n % v)

def toRoman (n : Nat) : List Char :=
  toRomanAux romanPairs n

/-- Value of a single upper-case Roman digit. -/
def romanValue : Char → Option Int
  | 'I' => some 1
  | 'V' => some 5
  | 'X' => some 10
  | 'L' => some 50
  | 'C' => some 100
  | 'D' => some 500
  | 'M' => some 1000
  | _ => none

/-- Left-to-right subtractive scan of a Roman string (a digit smaller than its
right neighbour is subtracted, otherwise added). -/
def scanRoman : List Char → Option Int
  | [] => some 0
  | [c] => romanValue c
  | c1 :: c2 :: rest => do
    let v1 ← romanValue c1
    let v2 ← romanValue c2
    let r ← scanRoman (c2 :: rest)
    if v1 < v2 then pure (r - v1) else pure (r + v1)

/-- Modelled from the spec: `toArabic` of the `roman-numerals` npm dependency
(not in the repository).  The spec says decoding "parses the symbolic numeral
(falling back to plain decimal if the symbolic parse fails)": `toArabic`
accepts exactly the canonical symbolic renderings (the outputs of `toRoman`)
and fails on anything else (the failure is the thrown exception of the
original, which `parseUsername` catches). -/
def toArabic (s : List Char) : Option Nat :=
  match scanRoman s with
  | none => none
  | some v =>
    if 1 ≤ v ∧ v ≤ 3999 ∧ toRoman v.toNat = s then some v.toNat else none

/-! ## JavaScript primitives used by the codec -/

/-- Decimal digit value, as used by `parseInt`. -/
def digitVal (c : Char) : Option Nat :=
  if '0' ≤ c ∧ c ≤ '9' then some (c.toNat - '0'.toNat) else none

def digitsVal (acc : Nat) : List Char → Nat
  | [] => acc
  | c :: rest =>
    match digitVal c with
    | some d => digitsVal (acc * 10 + d) rest
    | none => digitsVal acc rest

/-- JS `parseInt(s)` restricted to the strings it meets here (no sign, no
leading whitespace, since the matched token is drawn from the numeral
character class): the value of the longest digit prefix, or `none` (`NaN`)
when the first character is not a digit. -/
def parseIntJS (s : List Char) : Option Nat :=
  match s with
  | [] => none
  | c :: _ =>
    match digitVal c with
    | none => none
    | some _ => some (digitsVal 0 (s.takeWhile (fun d => (digitVal d).isSome)))

/-- JS number-to-string for the integers handled here: plain decimal with a
leading minus sign for negatives. -/
def decStr (i : Int) : List Char :=
  (toString i).data

/-! ## parseUsername (src/iron-manager.ts lines 162-189) -/

/-- Character class of the bracketed token:
`(?:[IVXLCDME]|[0-9])` under the `i` flag. -/
def isNumeralChar (c : Char) : Bool :=
  ['I','V','X','L','C','D','M','E','i','v','x','l','c','d','m','e',
   '0','1','2','3','4','5','6','7','8','9'].contains c

/-- JS dot (no s flag) refuses the four line terminators
LF, CR, U+2028 and U+2029. -/
def isLineTerminator (c : Char) : Bool :=
  c == '\n' || c == '\r' || c == Char.ofNat 0x2028 || c == Char.ofNat 0x2029

/-- The match of `/^\[ ?((?:[IVXLCDME]|[0-9])+) ?\] (.+)$/i` against `s`,
returning (group 1, group 2).  The backtracking search is deterministic
here: the token class contains neither a space nor a bracket, so the
optional spaces and the greedy `+`/`.+` admit at most one successful
decomposition, computed directly. -/
def regexMatch (s : List Char) : Option (List Char × List Char) :=
  match s with
  | '[' :: rest =>
    let rest := if rest.head? = some ' ' then rest.tail else rest
    let tok := rest.takeWhile isNumeralChar
    if tok.isEmpty then none
    else
      let rest2 := rest.drop tok.length
      let rest2 := if rest2.head? = some ' ' then rest2.tail else rest2
      match rest2 with
      | ']' :: ' ' :: name =>
        if name.isEmpty || name.any isLineTerminator then none
        else some (tok, name)
      | _ => none
  | _ => none

/-- Translation of `parseUsername` (src/iron-manager.ts lines 162-189).
Returns `[IRON value, name]`, or `none` for a bad format. -/
def parseUsername (username : List Char) : Option (Int × List Char) :=
  match regexMatch username with
  | none => none
  | some (tok, name) =>
    if tok ≠ ['E'] ∧ 'E' ∈ tok then none
    else if tok = ['E'] then some (-10, name)
    else
      match toArabic tok with
      | some n => some ((n : Int), name)
      | none =>
        match parseIntJS tok with
        | some n => some ((n : Int), name)
        | none => none

/-! ## createUsername (src/iron-manager.ts lines 198-233) -/

/-- The `numerals` token of `createUsername` (src/iron-manager.ts lines
205-212): symbolic for counts in (0, 500], the sentinel E for negative
counts, plain decimal otherwise. -/
def ironNumerals (iron : Int) : List Char :=
  if 0 < iron ∧ iron ≤ 500 then toRoman iron.toNat
  else if iron < 0 then ['E']
  else decStr iron

/-- Translation of `createUsername` (src/iron-manager.ts lines 198-233).
`none` is the thrown error for `iron < -10`. -/
def createUsername (iron : Int) (name : List Char) : Option (List Char) :=
  if iron < -10 then none
  else
    let numerals : List Char := ironNumerals iron
    let length := 5 + numerals.length + name.length
    if length ≤ 32 then
      some ('[' :: ' ' :: numerals ++ ' ' :: ']' :: ' ' :: name)
    else if length - 2 ≤ 32 then
      some ('[' :: numerals ++ ']' :: ' ' :: name)
    else
      let length2 := 5 + (decStr iron).length + name.length
      if length2 ≤ 32 then
        some ('[' :: ' ' :: decStr iron ++ ' ' :: ']' :: ' ' :: name)
      else
        some (('[' :: decStr iron ++ ']' :: ' ' :: name).take 32)

/-! ## The Lock (src/logger.ts lines 16-79)

The source grants each acquisition a fresh `crypto.randomUUID()` string and
stores it in `this.locked` (the empty string meaning "unlocked"); waiting
callers are promise resolvers pushed to the back of `this.waiting` and woken
one per `unlock` from the front.  Keys are embedded as naturals drawn from a
counter (randomUUID never repeats and never yields the empty string), callers
as naturals. -/

structure LockState where
  locked : Option Nat
  waiting : List Nat
  nextKey : Nat
  deriving Repr, DecidableEq

def initLock : LockState :=
  ⟨none, [], 0⟩

/-- Translation of `Lock.tryKey` (src/logger.ts lines 74-78): the check
`!this.locked || this.locked !== key` throws unless the lock is held and the
presented key is the current one.  `true` means the silent return. -/
def tryKey (s : LockState) (key : Nat) : Bool :=
  match s.locked with
  | none => false
  | some k => k == key

inductive LockOp where
  | lock (caller : Nat)
  | unlock (key : Nat)
  deriving Repr, DecidableEq

/-- A grant event: `caller` receives `key` (its `lock()` promise resolves).
`wasWaiter` records whether the caller had been queued. -/
structure Grant where
  caller : Nat
  key : Nat
  wasWaiter : Bool
  deriving Repr, DecidableEq

/-- One step of the Lock (src/logger.ts lines 27-68): `lock` either grants a
fresh key immediately or enqueues the caller at the back of `waiting`;
`unlock` validates the key (`tryKey` throws before any mutation), then
either hands a fresh key to the front waiter or clears the lock.
Returns (new state, grant events, callers enqueued). -/
def lockStep (s : LockState) : LockOp → LockState × List Grant × List Nat
  | .lock c =>
    match s.locked with
    | some _ => ({ s with waiting := s.waiting ++ [c] }, [], [c])
    | none =>
      ({ s with locked := some s.nextKey, nextKey := s.nextKey + 1 },
       [⟨c, s.nextKey, false⟩], [])
  | .unlock k =>
    if tryKey s k then
      match s.waiting with
      | [] => ({ s with locked := none }, [], [])
      | w :: rest =>
        ({ locked := some s.nextKey, waiting := rest, nextKey := s.nextKey + 1 },
         [⟨w, s.nextKey, true⟩], [])
    else (s, [], [])

structure RunResult where
  state : LockState
  grants : List Grant
  enqueued : List Nat
  deriving Repr, DecidableEq

def lockRunAux : RunResult → List LockOp → RunResult
  | r, [] => r
  | r, op :: ops =>
    lockRunAux
      ⟨(lockStep r.state op).1, r.grants ++ (lockStep r.state op).2.1,
       r.enqueued ++ (lockStep r.state op).2.2⟩ ops

/-- A whole run of the Lock from its initial state, accumulating the grant
events and the arrival order of queued callers. -/
def lockRun (ops : List LockOp) : RunResult :=
  lockRunAux ⟨initLock, [], []⟩ ops

/-- The callers that were granted the lock after waiting, in grant order. -/
def servedWaiters (gs : List Grant) : List Nat :=
  (gs.filter (·.wasWaiter)).map (·.caller)

/-! ## The weekly IRON ledger (src/logger.ts lines 84-252) -/

structure MemberWeeklyIronLog where
  numDeployments : Nat
  deployment : Bool
  commendation : Bool
  deriving Repr, DecidableEq

inductive IronAchivementType where
  | deployment
  | commendation
  deriving Repr, DecidableEq

def getAchivement (d : MemberWeeklyIronLog) : IronAchivementType → Bool
  | .deployment => d.deployment
  | .commendation => d.commendation

def setAchivement (d : MemberWeeklyIronLog) : IronAchivementType → MemberWeeklyIronLog
  | .deployment => { d with deployment := true }
  | .commendation => { d with commendation := true }

/-- The persisted ledger document.  Member ids (JS object keys, Discord
snowflake strings, which are too large to be array indices and hence keep
insertion order) are embedded as naturals in an insertion-ordered
association list. -/
structure IronJSON where
  weekTimestamp : Int
  members : List (Nat × MemberWeeklyIronLog)
  deriving Repr, DecidableEq

def alookup {α : Type} (l : List (Nat × α)) (k : Nat) : Option α :=
  (l.find? (·.1 == k)).map (·.2)

/-- The JS pattern `if (!map[m]) map[m] = dflt;`: insert at the back when the
key is absent. -/
def aensure {α : Type} (l : List (Nat × α)) (k : Nat) (dflt : α) : List (Nat × α) :=
  if (alookup l k).isSome then l else l ++ [(k, dflt)]

def amodify {α : Type} (l : List (Nat × α)) (k : Nat) (f : α → α) : List (Nat × α) :=
  l.map (fun p => if p.1 == k then (p.1, f p.2) else p)

/-- Translation of `IronLock.calcCurWeekTimestamp` (src/logger.ts lines
156-163): start of the current UTC day; if the Luxon ISO weekday (1 =
Monday) is 1, step back one day; then move to the Tuesday of that ISO week.
Times are epoch milliseconds; `Int` division by the positive constant
86400000 is floor division, matching `startOf('day')`, and the ISO weekday
of epoch day `d` is `(d + 3) % 7 + 1` (day 0, 1970-01-01, was a Thursday). -/
def calcCurWeekTimestamp (now : Int) : Int :=
  let day := now / 86400000
  let day := if (day + 3) % 7 + 1 = 1 then day - 1 else day
  (day - ((day + 3) % 7 + 1 - 2)) * 86400000

/-- Translation of `IronLock.validateData` (src/logger.ts lines 135-150),
after its `tryKey` has passed: on a week change the timestamp advances and
the member map is wiped (then persisted). -/
def validateData (now : Int) (iron : IronJSON) : IronJSON :=
  if iron.weekTimestamp = calcCurWeekTimestamp now then iron
  else { weekTimestamp := calcCurWeekTimestamp now, members := [] }

/-- Translation of `IronLock.lock` (src/logger.ts lines 125-129) for a caller
that is granted the lock: obtain the key via `super.lock()`, then run
`validateData` before the key is returned (for a caller that instead joins
the wait queue, validation runs when its promise later resolves). -/
def ironLockAcquire (caller : Nat) (now : Int) (s : LockState) (iron : IronJSON) :
    LockState × List Grant × IronJSON :=
  let (s', gs, _) := lockStep s (.lock caller)
  if gs.isEmpty then (s', gs, iron) else (s', gs, validateData now iron)

/-- Translation of `IronLock.readIron` (src/logger.ts lines 172-176), after
`tryKey`: `this.iron.members[memberID] || {numDeployments: 0}`. -/
def readIron (iron : IronJSON) (memberID : Nat) : MemberWeeklyIronLog :=
  (alookup iron.members memberID).getD ⟨0, false, false⟩

/-- Translation of `IronLock.writeIron` (src/logger.ts lines 185-194), after
`tryKey`: batch-set the achievement flag, creating records as needed. -/
def writeIron (iron : IronJSON) (members : List Nat) (type : IronAchivementType) :
    IronJSON :=
  { iron with
    members := members.foldl
      (fun ms m => amodify (aensure ms m ⟨0, false, false⟩) m (setAchivement · type))
      iron.members }

/-- Translation of `IronLock.incrementDeploymentTracker` (src/logger.ts lines
202-211), after `tryKey`. -/
def incrementDeploymentTracker (iron : IronJSON) (members : List Nat) : IronJSON :=
  { iron with
    members := members.foldl
      (fun ms m => amodify (aensure ms m ⟨0, false, false⟩) m
        (fun d => { d with numDeployments := d.numDeployments + 1 }))
      iron.members }

/-! ## The deployment activity store (src/logger.ts lines 257-555) -/

structure MemberDeploymentActivityRecord where
  joined : Option Int
  totalTime : Int
  deriving Repr, DecidableEq

structure DeploymentActivityJSON where
  active : Bool
  operationName : List Char
  started : List Char
  members : List (Nat × MemberDeploymentActivityRecord)
  deriving Repr, DecidableEq

structure DeploymentQualificationRecord where
  qualified : List Nat
  particpated : List Nat
  deriving Repr, DecidableEq

def MINIMUM_TIME_TO_QUALIFY : Int := 1000 * 60 * 60

inductive StoreError where
  | lockViolation
  | invalidTransition
  deriving Repr, DecidableEq

/-- JS truthiness of the `joined: number | null` field as used by
`if (record.joined)`: `null` and `0` are falsy. -/
def truthyJoined : Option Int → Bool
  | none => false
  | some t => t != 0

/-- Mark a present member, shared by `runRecovery` (src/logger.ts lines
331-345) and the seeding loop of `startDeployment` (lines 429-439): create
the record when absent, and stamp `joined` when not already truthy. -/
def markPresent (now : Int) (members : List (Nat × MemberDeploymentActivityRecord))
    (m : Nat) : List (Nat × MemberDeploymentActivityRecord) :=
  let members := aensure members m ⟨none, 0⟩
  if truthyJoined ((alookup members m).getD ⟨none, 0⟩).joined then members
  else amodify members m (fun r => { r with joined := some now })

/-- Close an open record: accumulate the elapsed time and clear `joined`
(the leave transition, src/logger.ts lines 350-355, 395-396, 456-462). -/
def closeRecord (now : Int) (r : MemberDeploymentActivityRecord) :
    MemberDeploymentActivityRecord :=
  ⟨none, r.totalTime + (now - r.joined.getD 0)⟩

/-- Translation of `DeploymentActivityLock.runRecovery` (src/logger.ts lines
310-362).  `recoveryRequired` is the instance flag (set at construction when
the stored document was `active`); `present` is the set of members the
environment reports in the voice category (the guild and category fetches
are assumed to succeed, else the method returns before touching state).
Returns the new flag and state. -/
def runRecovery (recoveryRequired : Bool) (present : List Nat) (now : Int)
    (st : DeploymentActivityJSON) : Bool × DeploymentActivityJSON :=
  if !recoveryRequired then (recoveryRequired, st)
  else
    let inactiveIds := st.members.map (·.1)
    let step := present.foldl
      (fun (p : List Nat × DeploymentActivityJSON) m =>
        (p.1.erase m, { p.2 with members := markPresent now p.2.members m }))
      (inactiveIds, st)
    let st := step.2
    let st := step.1.foldl
      (fun st m =>
        if truthyJoined ((alookup st.members m).getD ⟨none, 0⟩).joined then
          { st with members := amodify st.members m (closeRecord now) }
        else st)
      st
    (false, st)

/-- Translation of `DeploymentActivityLock.reportLeave` (src/logger.ts lines
382-399).  Note the record for an unknown member is created before the
leave transition is validated. -/
def reportLeave (lockSt : LockState) (key : Nat) (memberId : Nat) (now : Int)
    (st : DeploymentActivityJSON) : Except StoreError Unit × DeploymentActivityJSON :=
  if ¬ tryKey lockSt key then (.error .lockViolation, st)
  else
    let st := { st with members := aensure st.members memberId ⟨none, 0⟩ }
    if ¬ truthyJoined ((alookup st.members memberId).getD ⟨none, 0⟩).joined then
      (.error .invalidTransition, st)
    else
      (.ok (), { st with members := amodify st.members memberId (closeRecord now) })

/-- The freshly reset document written by `resetJSON` (src/logger.ts lines
513-522). -/
def emptyActivity : DeploymentActivityJSON :=
  ⟨false, [], [], []⟩

/-- Translation of `DeploymentActivityLock.startDeployment` (src/logger.ts
lines 406-445): validate key, fail if already active, otherwise reset state,
then (when the environment lookups succeed) open a log, seed the members the
environment reports present, and activate. -/
def startDeployment (lockSt : LockState) (key : Nat) (operationName : List Char)
    (envOk : Bool) (present : List Nat) (now : Int) (logStem : List Char)
    (st : DeploymentActivityJSON) : Except StoreError Unit × DeploymentActivityJSON :=
  if ¬ tryKey lockSt key then (.error .lockViolation, st)
  else if st.active then (.error .invalidTransition, st)
  else
    let st := emptyActivity
    if ¬ envOk then (.ok (), st)
    else
      let st := { st with started := logStem }
      let st := present.foldl
        (fun st m => { st with members := markPresent now st.members m }) st
      (.ok (), { st with operationName := operationName, active := true })

/-- Translation of `DeploymentActivityLock.getQualifiedMembers` (src/logger.ts
lines 473-496), after `tryKey`: partition every known member by accumulated
plus in-progress time against the one-hour minimum. -/
def getQualifiedMembers (now : Int) (st : DeploymentActivityJSON) :
    DeploymentQualificationRecord :=
  st.members.foldl
    (fun res p =>
      let record := p.2
      let time := record.totalTime +
        (if truthyJoined record.joined then now - record.joined.getD 0 else 0)
      if time ≥ MINIMUM_TIME_TO_QUALIFY then
        { res with qualified := res.qualified ++ [p.1] }
      else
        { res with particpated := res.particpated ++ [p.1] })
    ⟨[], []⟩

/-! ## The distribution orchestrator (src/iron-manager.ts lines 22-153) -/

structure GuildMember where
  id : Nat
  displayName : List Char
  manageable : Bool
  deriving Repr, DecidableEq

structure IronDistributionResults where
  issued : List GuildMember
  notIssued : List GuildMember
  duplicates : List GuildMember
  invalidName : List GuildMember
  namePermsError : List (GuildMember × List Char)
  rankPermsError : List GuildMember
  skippedEnvoys : List GuildMember
  commendedForService : List GuildMember
  deriving Repr, DecidableEq

structure AttemptTo where
  issue : List GuildMember
  commend : List GuildMember
  markParticipated : List GuildMember
  deriving Repr, DecidableEq

structure Phase1Acc where
  completedIDs : List Nat
  results : IronDistributionResults
  attemptTo : AttemptTo
  deriving Repr, DecidableEq

def emptyResults : IronDistributionResults :=
  ⟨[], [], [], [], [], [], [], []⟩

/-- Translation of `isEnvoy` (src/iron-manager.ts lines 292-301): parse the
display name (`.error` is the thrown exception for an unparseable name) and
test for a negative IRON value. -/
def isEnvoy (member : GuildMember) : Except Unit Bool :=
  match parseUsername member.displayName with
  | none => .error ()
  | some (c, _) => .ok (c < 0)

/-- One iteration of the classification loop of `distributeIron`
(src/iron-manager.ts lines 41-90), reading the locked ledger snapshot
`iron`. -/
def distributeStep (iron : IronJSON) (type : IronAchivementType)
    (acc : Phase1Acc) (member : GuildMember) : Phase1Acc :=
  if member.id ∈ acc.completedIDs then
    { acc with results.duplicates := acc.results.duplicates ++ [member] }
  else
    match isEnvoy member with
    | .error _ =>
      { acc with
        results.invalidName := acc.results.invalidName ++ [member],
        completedIDs := acc.completedIDs ++ [member.id] }
    | .ok true =>
      { acc with
        results.skippedEnvoys := acc.results.skippedEnvoys ++ [member],
        completedIDs := acc.completedIDs ++ [member.id] }
    | .ok false =>
      match parseUsername member.displayName with
      | none =>
        -- unreachable here (isEnvoy already parsed), kept from the source
        { acc with results.invalidName := acc.results.invalidName ++ [member] }
      | some _ =>
        let data := readIron iron member.id
        let acc :=
          if getAchivement data type then
            { acc with results.notIssued := acc.results.notIssued ++ [member] }
          else
            { acc with attemptTo.issue := acc.attemptTo.issue ++ [member] }
        let acc :=
          if type = .deployment then
            let acc :=
              { acc with
                attemptTo.markParticipated := acc.attemptTo.markParticipated ++ [member] }
            if data.numDeployments ≥ 4 ∧ ¬ data.commendation then
              { acc with attemptTo.commend := acc.attemptTo.commend ++ [member] }
            else acc
          else acc
        { acc with completedIDs := acc.completedIDs ++ [member.id] }

/-- The name/rank catch-up loop of `distributeIron` (src/iron-manager.ts lines
101-149), run outside the lock.  `promoError` is the outcome of the external
`tryPromotion` call (`true` means a permission error); `setNickname` has no
bearing on the result buckets (its failure is only logged). -/
def distributeUpdateNames (attempt : AttemptTo)
    (promoError : GuildMember → Int → Bool)
    (results : IronDistributionResults) : IronDistributionResults :=
  (attempt.issue ++ attempt.commend).foldl
    (fun results member =>
      match parseUsername member.displayName with
      | none => results
      | some (c0, _) =>
        let c := if c0 < 0 then c0 else c0 + 1
        if ¬ member.manageable then
          let newNumerals := if c ≤ 500 ∧ 0 < c then toRoman c.toNat else decStr c
          { results with namePermsError := results.namePermsError ++ [(member, newNumerals)] }
        else
          if promoError member c then
            { results with rankPermsError := results.rankPermsError ++ [member] }
          else if member ∈ attempt.commend then
            { results with
              commendedForService := results.commendedForService ++ [member] }
          else
            { results with issued := results.issued ++ [member] })
    results

/-- Translation of `distributeIron` (src/iron-manager.ts lines 22-153).
`iron` is the ledger contents as validated when the lock was acquired; the
function returns the result buckets, the ledger after the batched writes,
and the decided batches (whose member-id lists are exactly the arguments of
the `writeIron` / `incrementDeploymentTracker` calls). -/
def distributeIron (members : List GuildMember) (type : IronAchivementType)
    (iron : IronJSON) (promoError : GuildMember → Int → Bool) :
    IronDistributionResults × IronJSON × AttemptTo :=
  let p1 := members.foldl (distributeStep iron type) ⟨[], emptyResults, ⟨[], [], []⟩⟩
  let iron := writeIron iron (p1.attemptTo.issue.map (·.id)) type
  let iron := incrementDeploymentTracker iron (p1.attemptTo.markParticipated.map (·.id))
  let iron :=
    if p1.attemptTo.commend.length ≠ 0 then
      writeIron iron (p1.attemptTo.commend.map (·.id)) .commendation
    else iron
  let results := distributeUpdateNames p1.attemptTo promoError p1.results
  (results, iron, p1.attemptTo)

/-! ## Theorems -/


/-- C9: for every current UTC time, calcCurWeekTimestamp returns the
millisecond timestamp of the most recent Tuesday 00:00 UTC not after the
current time; on a Monday that Tuesday is six days back, on a Tuesday it is
the start of today. -/
theorem calcCurWeekTimestamp_most_recent_tuesday (now : Int) :
    calcCurWeekTimestamp now % 86400000 = 0 ∧
    (calcCurWeekTimestamp now / 86400000 + 3) % 7 + 1 = 2 ∧
    calcCurWeekTimestamp now ≤ now ∧
    now - calcCurWeekTimestamp now < 7 * 86400000 ∧
    ((now / 86400000 + 3) % 7 + 1 = 1 →
      calcCurWeekTimestamp now = (now / 86400000 - 6) * 86400000) ∧
    ((now / 86400000 + 3) % 7 + 1 = 2 →
      calcCurWeekTimestamp now = (now / 86400000) * 86400000) := by
  unfold calcCurWeekTimestamp
  dsimp only
  split_ifs with h <;> refine ⟨?_, ?_, ?_, ?_, ?_, ?_⟩ <;> omega

theorem calcCurWeekTimestamp_witness :
    calcCurWeekTimestamp 1699920000000 = 19675 * 86400000 :=
  (calcCurWeekTimestamp_most_recent_tuesday 1699920000000).2.2.2.2.2 (by decide)

/-- C3: when the stored weekTimestamp disagrees with the canonical week
start, acquiring the IronLock (which runs validateData before the key is
handed out) observes an empty members map and the new canonical
weekTimestamp, without any explicit reset call. -/
theorem ironLockAcquire_week_rollover (caller : Nat) (now : Int) (s : LockState)
    (iron : IronJSON) (hfree : s.locked = none)
    (hW : iron.weekTimestamp ≠ calcCurWeekTimestamp now) :
    (ironLockAcquire caller now s iron).2.2.members = [] ∧
    (ironLockAcquire caller now s iron).2.2.weekTimestamp = calcCurWeekTimestamp now := by
  unfold ironLockAcquire lockStep
  rw [hfree]
  simp [validateData, hW]

theorem ironLockAcquire_week_rollover_witness :
    initLock.locked = none ∧
    (IronJSON.mk 0 [(1, ⟨1, true, false⟩)]).weekTimestamp ≠ calcCurWeekTimestamp 1700000000000 ∧
    (ironLockAcquire 0 1700000000000 initLock ⟨0, [(1, ⟨1, true, false⟩)]⟩).2.2.members = [] :=
  ⟨rfl, by decide,
    (ironLockAcquire_week_rollover 0 1700000000000 initLock ⟨0, [(1, ⟨1, true, false⟩)]⟩
      rfl (by decide)).1⟩

/-- C7: startDeployment called with the valid key while a deployment is
already active raises an error and leaves the store's state (active flag,
operation name, log handle, member records) exactly as it was. -/
theorem startDeployment_active_fails_unchanged (s : LockState) (key : Nat)
    (opName : List Char) (envOk : Bool) (present : List Nat) (now : Int)
    (logStem : List Char) (st : DeploymentActivityJSON)
    (hkey : tryKey s key = true) (hactive : st.active = true) :
    startDeployment s key opName envOk present now logStem st =
      (.error .invalidTransition, st) := by
  unfold startDeployment
  simp [hkey, hactive]

theorem startDeployment_active_fails_unchanged_witness :
    tryKey ⟨some 5, [], 6⟩ 5 = true ∧
    (DeploymentActivityJSON.mk true ['o'] ['l'] [(3, ⟨some 7, 0⟩)]).active = true ∧
    startDeployment ⟨some 5, [], 6⟩ 5 ['p'] true [4] 99 ['s']
        ⟨true, ['o'], ['l'], [(3, ⟨some 7, 0⟩)]⟩ =
      (.error .invalidTransition, ⟨true, ['o'], ['l'], [(3, ⟨some 7, 0⟩)]⟩) :=
  ⟨by decide, rfl,
    startDeployment_active_fails_unchanged ⟨some 5, [], 6⟩ 5 ['p'] true [4] 99 ['s']
      ⟨true, ['o'], ['l'], [(3, ⟨some 7, 0⟩)]⟩ (by decide) rfl⟩


theorem alookup_append_none {α : Type} (l : List (Nat × α)) (m : Nat) (v : α)
    (h : alookup l m = none) : alookup (l ++ [(m, v)]) m = some v := by
  unfold alookup at h ⊢
  induction l with
  | nil => simp
  | cons p t ih =>
    rw [List.cons_append]
    by_cases hp : (p.1 == m) = true
    · simp [List.find?, hp] at h
    · simp only [List.find?, hp] at h ⊢
      exact ih h

/-- C10: reportLeave with the valid key for a member with no record raises
the invalid-transition error, but first creates a fresh record for the
member, who therefore shows up in getQualifiedMembers' participated
partition. -/
theorem reportLeave_unknown_member (s : LockState) (key m : Nat) (now : Int)
    (st : DeploymentActivityJSON) (hkey : tryKey s key = true)
    (habsent : alookup st.members m = none) :
    (reportLeave s key m now st).1 = .error .invalidTransition ∧
    alookup (reportLeave s key m now st).2.members m = some ⟨none, 0⟩ ∧
    m ∈ (getQualifiedMembers now (reportLeave s key m now st).2).particpated := by
  have hlk : alookup (st.members ++ [(m, (⟨none, 0⟩ : MemberDeploymentActivityRecord))]) m
      = some ⟨none, 0⟩ := alookup_append_none st.members m _ habsent
  have hmembers : (reportLeave s key m now st).2.members
      = st.members ++ [(m, ⟨none, 0⟩)] := by
    unfold reportLeave aensure
    simp [hkey, habsent, hlk, truthyJoined]
  have herr : (reportLeave s key m now st).1 = .error .invalidTransition := by
    unfold reportLeave aensure
    simp [hkey, habsent, hlk, truthyJoined]
  refine ⟨herr, by rw [hmembers]; exact hlk, ?_⟩
  rw [getQualifiedMembers, hmembers, List.foldl_append]
  simp [truthyJoined, MINIMUM_TIME_TO_QUALIFY]

theorem reportLeave_unknown_member_witness :
    tryKey ⟨some 2, [], 3⟩ 2 = true ∧
    alookup ((DeploymentActivityJSON.mk true ['o'] ['l'] [(7, ⟨some 5, 0⟩)]).members) 9 = none ∧
    9 ∈ (getQualifiedMembers 50
      (reportLeave ⟨some 2, [], 3⟩ 2 9 50 ⟨true, ['o'], ['l'], [(7, ⟨some 5, 0⟩)]⟩).2).particpated :=
  ⟨by decide, by decide,
    (reportLeave_unknown_member ⟨some 2, [], 3⟩ 2 9 50 ⟨true, ['o'], ['l'], [(7, ⟨some 5, 0⟩)]⟩
      (by decide) (by decide)).2.2⟩

/-- C5: on a stored active session with members X and Y open and the
environment reporting only X present, recovery leaves X open, closes Y by
accumulating the time up to now and clearing its joined stamp, and a second
recovery run changes nothing. -/
theorem runRecovery_closes_absent_and_idempotent
    (X Y : Nat) (jx jy tx ty now : Int) (opName started : List Char)
    (hne : X ≠ Y) (hjx : jx ≠ 0) (hjy : jy ≠ 0) :
    runRecovery true [X] now
        ⟨true, opName, started, [(X, ⟨some jx, tx⟩), (Y, ⟨some jy, ty⟩)]⟩ =
      (false, ⟨true, opName, started,
        [(X, ⟨some jx, tx⟩), (Y, ⟨none, ty + (now - jy)⟩)]⟩) ∧
    runRecovery false [X] now
        ⟨true, opName, started, [(X, ⟨some jx, tx⟩), (Y, ⟨none, ty + (now - jy)⟩)]⟩ =
      (false, ⟨true, opName, started,
        [(X, ⟨some jx, tx⟩), (Y, ⟨none, ty + (now - jy)⟩)]⟩) := by
  have h1 : (X == Y) = false := beq_eq_false_iff_ne.mpr hne
  have h2 : (Y == X) = false := beq_eq_false_iff_ne.mpr (Ne.symm hne)
  have h3 : (jx == 0) = false := beq_eq_false_iff_ne.mpr hjx
  have h4 : (jy == 0) = false := beq_eq_false_iff_ne.mpr hjy
  constructor
  · unfold runRecovery markPresent aensure amodify alookup closeRecord truthyJoined
    simp [List.erase_cons, h1, h2, h3, h4, hjx, hjy, hne, hne.symm, List.find?]
  · rfl

theorem runRecovery_witness :
    (1 : Nat) ≠ 2 ∧ (10 : Int) ≠ 0 ∧ (20 : Int) ≠ 0 ∧
    runRecovery true [1] 100
        ⟨true, ['o'], ['s'], [(1, ⟨some 10, 3⟩), (2, ⟨some 20, 4⟩)]⟩ =
      (false, ⟨true, ['o'], ['s'], [(1, ⟨some 10, 3⟩), (2, ⟨none, 4 + (100 - 20)⟩)]⟩) :=
  ⟨by decide, by decide, by decide,
    (runRecovery_closes_absent_and_idempotent 1 2 10 20 3 4 100 ['o'] ['s']
      (by decide) (by decide) (by decide)).1⟩


/-- Run invariant of the Lock: the waiters served so far followed by the
current queue are exactly the queued callers in arrival order; keys are
issued consecutively from 0; and the currently valid key, if any, is the
most recently issued one. -/
def lockInv (r : RunResult) : Prop :=
  servedWaiters r.grants ++ r.state.waiting = r.enqueued ∧
  r.grants.map (·.key) = List.range r.grants.length ∧
  r.state.nextKey = r.grants.length ∧
  (∀ k, r.state.locked = some k → k + 1 = r.state.nextKey)

theorem lockInv_step (r : RunResult) (op : LockOp) (h : lockInv r) :
    lockInv ⟨(lockStep r.state op).1, r.grants ++ (lockStep r.state op).2.1,
             r.enqueued ++ (lockStep r.state op).2.2⟩ := by
  obtain ⟨h1, h2, h3, h4⟩ := h
  have tac : servedWaiters r.grants ++ r.state.waiting = r.enqueued := h1
  cases op with
  | lock c =>
    cases hl : r.state.locked with
    | some k =>
      refine ⟨?_, ?_, ?_, ?_⟩ <;>
        simp [lockStep, hl, servedWaiters, List.filter_append, List.map_append,
          List.range_succ, h2, h3] at * <;>
        first
        | rfl
        | exact h1
        | exact h4
        | omega
        | (rw [← List.append_assoc, h1])
        | (rw [← h1]; simp)
    | none =>
      refine ⟨?_, ?_, ?_, ?_⟩ <;>
        simp [lockStep, hl, servedWaiters, List.filter_append, List.map_append,
          List.range_succ, h2, h3] at * <;>
        first
        | rfl
        | exact h1
        | exact h4
        | omega
        | (rw [← List.append_assoc, h1])
        | (rw [← h1]; simp)
  | unlock k =>
    by_cases hk : tryKey r.state k = true
    · cases hw : r.state.waiting with
      | nil =>
        refine ⟨?_, ?_, ?_, ?_⟩ <;>
          simp [lockStep, hk, hw, servedWaiters, List.filter_append, List.map_append,
            List.range_succ, h2, h3] at * <;>
          first
          | rfl
          | exact h1
          | exact h4
          | omega
          | (rw [← List.append_assoc, h1])
          | (rw [← h1]; simp)
      | cons w rest =>
        refine ⟨?_, ?_, ?_, ?_⟩ <;>
          simp [lockStep, hk, hw, servedWaiters, List.filter_append, List.map_append,
            List.range_succ, h2, h3] at * <;>
          first
          | rfl
          | exact h1
          | exact h4
          | omega
          | (rw [← List.append_assoc, h1])
          | (rw [← h1]; simp)
    · refine ⟨?_, ?_, ?_, ?_⟩ <;>
        simp [lockStep, hk, servedWaiters, List.filter_append, List.map_append,
          List.range_succ, h2, h3] at * <;>
        first
        | rfl
        | exact h1
        | exact h4
        | omega
        | (rw [← List.append_assoc, h1])
        | (rw [← h1]; simp)

theorem lockRunAux_inv : ∀ (ops : List LockOp) (r : RunResult),
    lockInv r → lockInv (lockRunAux r ops)
  | [], _, h => h
  | op :: ops, r, h => lockRunAux_inv ops _ (lockInv_step r op h)

theorem lockRun_inv (ops : List LockOp) : lockInv (lockRun ops) :=
  lockRunAux_inv ops ⟨initLock, [], []⟩ ⟨rfl, rfl, rfl, by intro k hk; cases hk⟩

/-- C2: over any sequence of lock and unlock calls, a presented key passes
the validity check iff it is the single currently held key (so at most one
valid key exists at any instant and any other key fails), keys are never
reissued, and waiters are granted the lock in the order their lock calls
arrived. -/
theorem lock_single_key_and_fifo (ops : List LockOp) :
    (∀ k, tryKey (lockRun ops).state k = true ↔ (lockRun ops).state.locked = some k) ∧
    (∀ k1 k2, tryKey (lockRun ops).state k1 = true →
      tryKey (lockRun ops).state k2 = true → k1 = k2) ∧
    ((lockRun ops).grants.map (·.key)).Nodup ∧
    servedWaiters (lockRun ops).grants <+: (lockRun ops).enqueued := by
  obtain ⟨h1, h2, _, _⟩ := lockRun_inv ops
  have htry : ∀ k, tryKey (lockRun ops).state k = true ↔
      (lockRun ops).state.locked = some k := by
    intro k
    unfold tryKey
    cases (lockRun ops).state.locked <;> simp
  refine ⟨htry, ?_, ?_, ⟨(lockRun ops).state.waiting, h1⟩⟩
  · intro k1 k2 hk1 hk2
    have e1 := (htry k1).mp hk1
    have e2 := (htry k2).mp hk2
    rw [e1] at e2
    exact Option.some_inj.mp e2
  · rw [h2]
    exact List.nodup_range _

theorem lock_single_key_and_fifo_witness :
    tryKey (lockRun [.lock 1, .lock 2, .lock 3, .unlock 0]).state 1 = true ∧
    (1 : Nat) = 1 :=
  ⟨by decide,
    (lock_single_key_and_fifo [.lock 1, .lock 2, .lock 3, .unlock 0]).2.1 1 1
      (by decide) (by decide)⟩


/-- C4: for every count at least -10 and every name, createUsername succeeds
and its result is at most 32 characters, via the fallback chain (drop
padding, re-render in decimal, hard-truncate). -/
theorem createUsername_length_le (iron : Int) (name : List Char)
    (h : -10 ≤ iron) :
    ∃ s, createUsername iron name = some s ∧ s.length ≤ 32 := by
  unfold createUsername
  rw [if_neg (by omega)]
  dsimp only
  split_ifs with h1 h2 h3 <;>
    refine ⟨_, rfl, ?_⟩ <;>
    simp only [List.length_cons, List.length_append, List.length_take,
      List.length_singleton] at * <;>
    omega

theorem createUsername_length_le_witness :
    (-10 : Int) ≤ 3 ∧
    ∃ s, createUsername 3 ['T','r','o','o','p','e','r'] = some s ∧ s.length ≤ 32 :=
  ⟨by decide, createUsername_length_le 3 ['T','r','o','o','p','e','r'] (by decide)⟩

lemma createUsername_eq_none_iff (iron : Int) (name : List Char) :
    createUsername iron name = none ↔ iron < -10 := by
  constructor
  · intro hnone
    by_contra hlt
    unfold createUsername at hnone
    rw [if_neg hlt] at hnone
    revert hnone
    dsimp only
    split_ifs <;> simp
  · intro hlt
    unfold createUsername
    rw [if_pos hlt]

/-- Closed form of createUsername for the sentinel count -10. -/
lemma createUsername_neg10 (name : List Char) :
    createUsername (-10) name =
      if 6 + name.length ≤ 32 then some ('[' :: ' ' :: 'E' :: ' ' :: ']' :: ' ' :: name)
      else if 4 + name.length ≤ 32 then some ('[' :: 'E' :: ']' :: ' ' :: name)
      else if 8 + name.length ≤ 32 then
        some ('[' :: ' ' :: '-' :: '1' :: '0' :: ' ' :: ']' :: ' ' :: name)
      else some (('[' :: '-' :: '1' :: '0' :: ']' :: ' ' :: name).take 32) := by
  have hdec : decStr (-10) = ['-', '1', '0'] := by decide
  have hE : ironNumerals (-10) = ['E'] := by decide
  unfold createUsername
  norm_num [hdec, hE]
  split_ifs <;> first | rfl | omega | simp | (exfalso; omega)

/-- C8 counterexample: for count -10 with a 29-character name, createUsername
does not raise, but the fallback renders the decimal token -10, not the
sentinel E, so the bracketed prefix of the result contains no E. -/
theorem createUsername_envoy_no_sentinel_cex :
    createUsername (-10) (List.replicate 29 'a') =
      some ('[' :: '-' :: '1' :: '0' :: ']' :: ' ' :: List.replicate 26 'a') ∧
    'E' ∉ ('[' :: '-' :: '1' :: '0' :: ']' :: ' ' :: List.replicate 26 'a') := by
  constructor
  · decide
  · decide

/-- C8 (amended): createUsername raises exactly when the count is below -10;
for the sentinel count -10 it does not raise, and it renders the token E in
the bracketed prefix whenever the name is at most 28 characters, i.e.
whenever the decimal fallback branch is not reached. -/
theorem createUsername_error_iff_and_sentinel (iron : Int) (name : List Char) :
    (createUsername iron name = none ↔ iron < -10) ∧
    (name.length ≤ 28 →
      createUsername (-10) name =
          some ('[' :: ' ' :: 'E' :: ' ' :: ']' :: ' ' :: name) ∨
      createUsername (-10) name = some ('[' :: 'E' :: ']' :: ' ' :: name)) := by
  refine ⟨createUsername_eq_none_iff iron name, ?_⟩
  intro hn
  rw [createUsername_neg10]
  by_cases hc : name.length ≤ 26
  · left
    rw [if_pos (by omega)]
  · right
    rw [if_neg (by omega), if_pos (by omega)]

theorem createUsername_error_iff_and_sentinel_witness :
    (['T'] : List Char).length ≤ 28 ∧
    (createUsername (-10) ['T'] = some ('[' :: ' ' :: 'E' :: ' ' :: ']' :: ' ' :: ['T']) ∨
      createUsername (-10) ['T'] = some ('[' :: 'E' :: ']' :: ' ' :: ['T'])) :=
  ⟨by decide, (createUsername_error_iff_and_sentinel (-10) ['T']).2 (by decide)⟩



set_option maxRecDepth 100000 in
/-- Facts about the decimal token for counts 0..500: numeral-class characters
only, no E, nonempty, at most 3 characters, rejected by the symbolic parser,
and recovered exactly by parseInt. -/
lemma decStr_facts : ∀ n : Nat, n < 501 →
    (decStr (n : Int)).all isNumeralChar = true ∧
    'E' ∉ decStr (n : Int) ∧
    decStr (n : Int) ≠ [] ∧
    (decStr (n : Int)).length ≤ 3 ∧
    toArabic (decStr (n : Int)) = none ∧
    parseIntJS (decStr (n : Int)) = some n := by decide

set_option maxRecDepth 100000 in
/-- Facts about the symbolic token for counts 1..500: numeral-class
characters only, no E, nonempty, and recovered exactly by toArabic. -/
lemma toRoman_facts : ∀ n : Nat, n < 501 → 1 ≤ n →
    (toRoman n).all isNumeralChar = true ∧
    'E' ∉ toRoman n ∧
    toRoman n ≠ [] ∧
    toArabic (toRoman n) = some n := by decide

lemma takeWhile_append_all {p : Char → Bool} {l1 l2 : List Char}
    (h : l1.all p = true) : (l1 ++ l2).takeWhile p = l1 ++ l2.takeWhile p := by
  induction l1 with
  | nil => simp
  | cons c t ih =>
    simp only [List.all_cons, Bool.and_eq_true] at h
    simp [List.takeWhile_cons, h.1, ih h.2]

/-- The regex matches the fully spaced rendering, extracting token and name. -/
lemma regexMatch_spaced (tok name : List Char)
    (htok : tok.all isNumeralChar = true) (htne : tok ≠ [])
    (hname : name ≠ []) (hnl : name.any isLineTerminator = false) :
    regexMatch ('[' :: ' ' :: (tok ++ ' ' :: ']' :: ' ' :: name)) = some (tok, name) := by
  have h1 : (tok ++ ' ' :: ']' :: ' ' :: name).takeWhile isNumeralChar = tok := by
    rw [takeWhile_append_all htok]
    simp [List.takeWhile_cons, show isNumeralChar ' ' = false from rfl]
  unfold regexMatch
  simp [h1, htne, hname, hnl, List.drop_left]

/-- The regex matches the tight rendering (padding spaces dropped). -/
lemma regexMatch_tight (tok name : List Char)
    (htok : tok.all isNumeralChar = true) (htne : tok ≠ [])
    (hname : name ≠ []) (hnl : name.any isLineTerminator = false) :
    regexMatch ('[' :: (tok ++ ']' :: ' ' :: name)) = some (tok, name) := by
  obtain ⟨c, t, rfl⟩ : ∃ c t, tok = c :: t := by
    cases tok with
    | nil => exact absurd rfl htne
    | cons c t => exact ⟨c, t, rfl⟩
  have hc : isNumeralChar c = true := by
    simp only [List.all_cons, Bool.and_eq_true] at htok
    exact htok.1
  have hcs : c ≠ ' ' := by
    intro h
    rw [h] at hc
    exact absurd hc (by decide)
  have h1 : List.takeWhile isNumeralChar (c :: (t ++ ']' :: ' ' :: name)) = c :: t := by
    rw [← List.cons_append, takeWhile_append_all htok]
    simp [List.takeWhile_cons, show isNumeralChar ']' = false from rfl]
  have h2 : List.drop (c :: t).length (c :: (t ++ ']' :: ' ' :: name)) =
      ']' :: ' ' :: name := by
    rw [← List.cons_append, List.drop_left]
  unfold regexMatch
  simp only [List.cons_append] at *
  simp [h1, h2, hcs, hname, hnl]

/-- parseUsername on a matched (token, name) pair whose token is E-free and
parses (symbolically or by the decimal fallback) to n. -/
lemma parseUsername_shape {s tok name : List Char} {n : Nat}
    (hE : 'E' ∉ tok)
    (hparse : toArabic tok = some n ∨ (toArabic tok = none ∧ parseIntJS tok = some n))
    (hre : regexMatch s = some (tok, name)) :
    parseUsername s = some ((n : Int), name) := by
  unfold parseUsername
  rw [hre]
  dsimp only
  have h1 : ¬(tok ≠ ['E'] ∧ 'E' ∈ tok) := fun h => hE h.2
  have h2 : tok ≠ ['E'] := by
    intro h
    rw [h] at hE
    exact hE (by simp)
  rw [if_neg h1, if_neg h2]
  rcases hparse with h | ⟨ha, hb⟩
  · simp [h]
  · simp [ha, hb]

/-- Token facts for the numerals rendering over the round-trip range. -/
lemma ironNumerals_facts (iron : Int) (h0 : 0 ≤ iron) (h500 : iron ≤ 500) :
    (ironNumerals iron).all isNumeralChar = true ∧
    'E' ∉ ironNumerals iron ∧
    ironNumerals iron ≠ [] ∧
    (toArabic (ironNumerals iron) = some iron.toNat ∨
      (toArabic (ironNumerals iron) = none ∧
        parseIntJS (ironNumerals iron) = some iron.toNat)) := by
  unfold ironNumerals
  by_cases hp : 0 < iron ∧ iron ≤ 500
  · rw [if_pos hp]
    have hf := toRoman_facts iron.toNat (by omega) (by omega)
    exact ⟨hf.1, hf.2.1, hf.2.2.1, Or.inl hf.2.2.2⟩
  · rw [if_neg hp, if_neg (by omega)]
    have hf := decStr_facts iron.toNat (by omega)
    have heq : ((iron.toNat : Nat) : Int) = iron := by omega
    rw [heq] at hf
    refine ⟨hf.1, hf.2.1, hf.2.2.1, Or.inr ⟨hf.2.2.2.2.1, ?_⟩⟩
    rw [hf.2.2.2.2.2]


lemma parseUsername_E {s name : List Char}
    (hre : regexMatch s = some (['E'], name)) :
    parseUsername s = some (-10, name) := by
  unfold parseUsername
  rw [hre]
  simp

lemma any_take_false {p : Char → Bool} {l : List Char} (h : l.any p = false)
    (k : Nat) : (l.take k).any p = false := by
  rw [List.any_eq_false] at h ⊢
  exact fun c hc => h c (List.take_subset k l hc)

/-- C1 counterexample: with the sentinel count -10 and a 30-character name,
the encoded display string stays within 32 characters, yet decoding it
returns nothing at all (the truncated decimal-fallback prefix does not
re-parse), so the round trip fails. -/
theorem parse_createUsername_roundtrip_cex :
    createUsername (-10) (List.replicate 30 'a') =
      some ('[' :: '-' :: '1' :: '0' :: ']' :: ' ' :: List.replicate 26 'a') ∧
    ('[' :: '-' :: '1' :: '0' :: ']' :: ' ' :: List.replicate 26 'a').length ≤ 32 ∧
    parseUsername ('[' :: '-' :: '1' :: '0' :: ']' :: ' ' :: List.replicate 26 'a') =
      none := by
  refine ⟨by decide, by decide, by decide⟩

/-- C1 (amended): for counts in the set consisting of -10 and 0..500 and
nonempty names free of line terminators, if the padding-stripped encoding
fits the 32-character budget (so the hard-truncation branch cannot cut), the
round trip returns the original pair; and for every count in 0..500 with a
nonempty line-terminator-free name, the encoding is at most 32 characters
and still decodes to the original count with a nonempty prefix of the name
(truncated-name pair).  Empty names, names holding line terminators, and the
truncating sentinel case fail to decode, as the counterexample shows. -/
theorem parse_createUsername_roundtrip :
    (∀ (iron : Int) (name : List Char),
      (iron = -10 ∨ 0 ≤ iron ∧ iron ≤ 500) →
      name ≠ [] →
      name.any isLineTerminator = false →
      (3 + (ironNumerals iron).length + name.length ≤ 32 ∨
        3 + (decStr iron).length + name.length ≤ 32) →
      ∃ s, createUsername iron name = some s ∧
        parseUsername s = some (iron, name)) ∧
    (∀ (iron : Int) (name : List Char),
      0 ≤ iron → iron ≤ 500 → name ≠ [] →
      name.any isLineTerminator = false →
      ∃ s m, createUsername iron name = some s ∧ s.length ≤ 32 ∧
        parseUsername s = some (iron, m) ∧ m <+: name ∧ m ≠ []) := by
  constructor
  · intro iron name hc hname hnl hfit
    rcases hc with rfl | ⟨h0, h500⟩
    · -- sentinel count
      have hE1 : (ironNumerals (-10)).length = 1 := by decide
      have hD3 : (decStr (-10)).length = 3 := by decide
      have hlen : name.length ≤ 28 := by omega
      rw [createUsername_neg10]
      by_cases hc26 : name.length ≤ 26
      · rw [if_pos (by omega)]
        exact ⟨_, rfl,
          parseUsername_E (regexMatch_spaced ['E'] name (by decide) (by decide) hname hnl)⟩
      · rw [if_neg (by omega), if_pos (by omega)]
        exact ⟨_, rfl,
          parseUsername_E (regexMatch_tight ['E'] name (by decide) (by decide) hname hnl)⟩
    · -- numeric count
      obtain ⟨ha, hb, hcne, hparse⟩ := ironNumerals_facts iron h0 h500
      have htn : ((iron.toNat : Nat) : Int) = iron := by omega
      have hdf := decStr_facts iron.toNat (by omega)
      rw [htn] at hdf
      unfold createUsername
      rw [if_neg (by omega)]
      dsimp only
      split_ifs with hb1 hb2 hb3
      · refine ⟨_, rfl, ?_⟩
        have h := parseUsername_shape hb hparse
          (regexMatch_spaced (ironNumerals iron) name ha hcne hname hnl)
        rw [htn] at h
        exact h
      · refine ⟨_, rfl, ?_⟩
        have h := parseUsername_shape hb hparse
          (regexMatch_tight (ironNumerals iron) name ha hcne hname hnl)
        rw [htn] at h
        exact h
      · refine ⟨_, rfl, ?_⟩
        have h := parseUsername_shape hdf.2.1
          (Or.inr ⟨hdf.2.2.2.2.1, hdf.2.2.2.2.2⟩)
          (regexMatch_spaced (decStr iron) name hdf.1 hdf.2.2.1 hname hnl)
        rw [htn] at h
        exact h
      · -- hard-truncation branch: the fit hypothesis means nothing is cut
        have hd : 3 + (decStr iron).length + name.length ≤ 32 := by
          rcases hfit with h | h
          · omega
          · exact h
        have htake : ('[' :: decStr iron ++ ']' :: ' ' :: name).take 32 =
            '[' :: decStr iron ++ ']' :: ' ' :: name :=
          List.take_of_length_le
            (by simp only [List.length_cons, List.length_append]; omega)
        refine ⟨_, rfl, ?_⟩
        rw [htake]
        have h := parseUsername_shape hdf.2.1
          (Or.inr ⟨hdf.2.2.2.2.1, hdf.2.2.2.2.2⟩)
          (regexMatch_tight (decStr iron) name hdf.1 hdf.2.2.1 hname hnl)
        rw [htn] at h
        exact h
  · intro iron name h0 h500 hname hnl
    obtain ⟨ha, hb, hcne, hparse⟩ := ironNumerals_facts iron h0 h500
    have htn : ((iron.toNat : Nat) : Int) = iron := by omega
    have hdf := decStr_facts iron.toNat (by omega)
    rw [htn] at hdf
    unfold createUsername
    rw [if_neg (by omega)]
    dsimp only
    split_ifs with hb1 hb2 hb3
    · refine ⟨_, name, rfl, ?_, ?_, List.prefix_refl name, hname⟩
      · simp only [List.length_cons, List.length_append, List.length_nil,
          List.length_take]
        omega
      · have h := parseUsername_shape hb hparse
          (regexMatch_spaced (ironNumerals iron) name ha hcne hname hnl)
        rw [htn] at h
        exact h
    · refine ⟨_, name, rfl, ?_, ?_, List.prefix_refl name, hname⟩
      · simp only [List.length_cons, List.length_append, List.length_nil,
          List.length_take]
        omega
      · have h := parseUsername_shape hb hparse
          (regexMatch_tight (ironNumerals iron) name ha hcne hname hnl)
        rw [htn] at h
        exact h
    · refine ⟨_, name, rfl, ?_, ?_, List.prefix_refl name, hname⟩
      · simp only [List.length_cons, List.length_append, List.length_nil,
          List.length_take]
        omega
      · have h := parseUsername_shape hdf.2.1
          (Or.inr ⟨hdf.2.2.2.2.1, hdf.2.2.2.2.2⟩)
          (regexMatch_spaced (decStr iron) name hdf.1 hdf.2.2.1 hname hnl)
        rw [htn] at h
        exact h
    · -- hard truncation branch
      have hdl : (decStr iron).length ≤ 3 := hdf.2.2.2.1
      have hsplit : '[' :: decStr iron ++ ']' :: ' ' :: name =
          ('[' :: decStr iron ++ [']', ' ']) ++ name := by simp
      have hk : ¬(32 - ('[' :: decStr iron ++ [']', ' ']).length = 0) := by
        simp only [List.length_cons, List.length_append, List.length_nil]
        omega
      have htake : ('[' :: decStr iron ++ ']' :: ' ' :: name).take 32 =
          '[' :: decStr iron ++ ']' :: ' ' ::
            name.take (32 - ('[' :: decStr iron ++ [']', ' ']).length) := by
        rw [hsplit, List.take_append_eq_append_take,
          List.take_of_length_le
            (by simp only [List.length_cons, List.length_append, List.length_nil]; omega)]
        simp
      set m := name.take (32 - ('[' :: decStr iron ++ [']', ' ']).length) with hm
      have hmne : m ≠ [] := by
        rw [hm]
        simp only [ne_eq, List.take_eq_nil_iff]
        push_neg
        exact ⟨hk, hname⟩
      have hmnl : m.any isLineTerminator = false := any_take_false hnl _
      have he : ('[' :: decStr iron ++ [']', ' ']).length =
          3 + (decStr iron).length := by
        simp only [List.length_cons, List.length_append, List.length_nil]
        omega
      have hmlen : m.length =
          min (32 - ('[' :: decStr iron ++ [']', ' ']).length) name.length := by
        rw [hm, List.length_take]
      refine ⟨_, m, rfl, ?_, ?_, List.take_prefix _ name, hmne⟩
      · rw [htake]
        simp only [List.length_cons, List.length_append, List.length_nil,
          List.length_take]
        omega
      · rw [htake]
        have h := parseUsername_shape hdf.2.1
          (Or.inr ⟨hdf.2.2.2.2.1, hdf.2.2.2.2.2⟩)
          (regexMatch_tight (decStr iron) m hdf.1 hdf.2.2.1 hmne hmnl)
        rw [htn] at h
        exact h

theorem parse_createUsername_roundtrip_witness :
    parseUsername ('[' :: ' ' :: 'I' :: 'V' :: ' ' :: ']' :: ' ' ::
        ['T','r','o','o','p','e','r']) = some (4, ['T','r','o','o','p','e','r']) := by
  have h := (parse_createUsername_roundtrip).1 4 ['T','r','o','o','p','e','r']
    (by norm_num) (by decide) (by decide) (by left; decide)
  obtain ⟨s, hs, hp⟩ := h
  have hs' : s = '[' :: ' ' :: 'I' :: 'V' :: ' ' :: ']' :: ' ' ::
      ['T','r','o','o','p','e','r'] := by
    have : createUsername 4 ['T','r','o','o','p','e','r'] =
        some ('[' :: ' ' :: 'I' :: 'V' :: ' ' :: ']' :: ' ' ::
          ['T','r','o','o','p','e','r']) := by decide
    rw [this] at hs
    exact (Option.some_inj.mp hs).symm
  rw [hs'] at hp
  exact hp



/-- C6: for a member A with a valid non-envoy parseable display name who is
manageable, on a fresh ledger, with the external promotion call succeeding,
distributeIron [A, A] for the deployment category returns exactly one issued
entry and exactly one duplicates entry for A; the decided issue batch (the
argument of the single deployment writeIron call) holds A once and the
commendation batch is empty, so A's achievement flag is written at most
once, and the final ledger records it once. -/
theorem distributeIron_duplicate_once (A : GuildMember) (c : Int) (nm : List Char)
    (W : Int) (promoError : GuildMember → Int → Bool)
    (hparse : parseUsername A.displayName = some (c, nm))
    (hc : 0 ≤ c) (hman : A.manageable = true)
    (hpromo : promoError A (c + 1) = false) :
    (distributeIron [A, A] .deployment ⟨W, []⟩ promoError).1.issued = [A] ∧
    (distributeIron [A, A] .deployment ⟨W, []⟩ promoError).1.duplicates = [A] ∧
    (distributeIron [A, A] .deployment ⟨W, []⟩ promoError).2.2.issue = [A] ∧
    (distributeIron [A, A] .deployment ⟨W, []⟩ promoError).2.2.commend = [] ∧
    readIron (distributeIron [A, A] .deployment ⟨W, []⟩ promoError).2.1 A.id =
      ⟨1, true, false⟩ := by
  have hcneg : ¬(c < 0) := by omega
  have h1 : distributeStep ⟨W, []⟩ .deployment ⟨[], emptyResults, ⟨[], [], []⟩⟩ A =
      ⟨[A.id], emptyResults, ⟨[A], [], [A]⟩⟩ := by
    unfold distributeStep isEnvoy readIron alookup emptyResults getAchivement
    simp [hparse, hcneg]
  have h2 : distributeStep ⟨W, []⟩ .deployment ⟨[A.id], emptyResults, ⟨[A], [], [A]⟩⟩ A =
      ⟨[A.id], { emptyResults with duplicates := [A] }, ⟨[A], [], [A]⟩⟩ := by
    unfold distributeStep emptyResults
    simp
  have hfold : List.foldl (distributeStep ⟨W, []⟩ .deployment)
      ⟨[], emptyResults, ⟨[], [], []⟩⟩ [A, A] =
      ⟨[A.id], { emptyResults with duplicates := [A] }, ⟨[A], [], [A]⟩⟩ := by
    rw [List.foldl_cons, h1, List.foldl_cons, h2, List.foldl_nil]
  have h3 : distributeUpdateNames ⟨[A], [], [A]⟩ promoError
      { emptyResults with duplicates := [A] } =
      { emptyResults with duplicates := [A], issued := [A] } := by
    unfold distributeUpdateNames emptyResults
    simp [hparse, hcneg, hman, hpromo]
  unfold distributeIron
  rw [hfold]
  dsimp only
  rw [h3]
  refine ⟨rfl, rfl, rfl, rfl, ?_⟩
  unfold writeIron incrementDeploymentTracker readIron aensure amodify alookup
    setAchivement
  simp

theorem distributeIron_duplicate_once_witness :
    parseUsername (GuildMember.mk 1
        ['[', ' ', 'I', 'V', ' ', ']', ' ', 'T', 'r', 'o', 'o', 'p', 'e', 'r']
        true).displayName = some (4, ['T', 'r', 'o', 'o', 'p', 'e', 'r']) ∧
    (distributeIron
        [⟨1, ['[', ' ', 'I', 'V', ' ', ']', ' ', 'T', 'r', 'o', 'o', 'p', 'e', 'r'], true⟩,
         ⟨1, ['[', ' ', 'I', 'V', ' ', ']', ' ', 'T', 'r', 'o', 'o', 'p', 'e', 'r'], true⟩]
        .deployment ⟨0, []⟩ (fun _ _ => false)).1.issued =
      [⟨1, ['[', ' ', 'I', 'V', ' ', ']', ' ', 'T', 'r', 'o', 'o', 'p', 'e', 'r'], true⟩] :=
  ⟨by decide,
    (distributeIron_duplicate_once
      ⟨1, ['[', ' ', 'I', 'V', ' ', ']', ' ', 'T', 'r', 'o', 'o', 'p', 'e', 'r'], true⟩
      4 ['T', 'r', 'o', 'o', 'p', 'e', 'r'] 0 (fun _ _ => false)
      (by decide) (by decide) (by decide) (by decide)).1⟩


end IronManager
